import Mathlib

/-
Verification of the rope library (Go package `rope`, src/main.go) against its
specification.  The Go code is shallowly embedded: slices become `List T`,
Go `int` indices become `Int` (with the explicit clamping helper `bound`
translated as-is), the zero-value filling of `make([]T, n)` becomes
`List.replicate n default` (requiring `[Inhabited T]`, mirroring Go's zero
values), and the in-place `copy(dst, src)` builtin becomes the pure function
`copyList` returning the updated destination.  Since `NewRope` genuinely
diverges for `SplitLength ≤ 0`, the mutually recursive `NewRope`/`adjust`
pair is embedded with an explicit fuel parameter returning `Option`;
`none` models non-termination / insufficient fuel.
-/

namespace RopeModel

/-- Embeds the Go `Settings` struct (src/main.go).  `SplitLength` and
`JoinLength` are Go `int`s.  The `Rebalance float32` ratio field is not
embedded as a number: the floating-point ratio test is abstracted as a
Boolean predicate parameter of `Rope.Rebalance` below. -/
structure Settings where
  SplitLength : Int
  JoinLength : Int
deriving DecidableEq, Repr

/-- Embeds the Go `Rope[T]` struct in its well-shaped form: a leaf holds a
(non-nil) buffer plus the cached `length` field; an internal node holds the
cached `length` and both children (`value = nil`).  The raw pointer-level
struct, where the buffer and the children are all optional, is embedded
separately as `GRope` below. -/
inductive Rope (T : Type) where
  | leaf (value : List T) (length : Nat)
  | node (length : Nat) (left : Rope T) (right : Rope T)
deriving DecidableEq, Repr

/-- The cached `length` field of a rope node. -/
def Rope.len : Rope T → Nat
  | .leaf _ n => n
  | .node n _ _ => n

/-- Embeds the Go builtin `copy(dst, src)`: overwrites the first
`min |dst| |src|` slots of `dst` with `src`, returning the updated `dst`. -/
def copyList (dst src : List T) : List T :=
  src.take dst.length ++ dst.drop src.length

/-- Embeds `func (r *Rope[T]) Copy(dst []T)` (src/main.go): a leaf copies its
buffer into `dst`; an internal node copies `left` into `dst` and `right`
into the suffix `dst[left.length:]`. -/
def Rope.Copy : Rope T → List T → List T
  | .leaf v _, dst => copyList dst v
  | .node _ l r, dst =>
      let d1 := l.Copy dst
      d1.take l.len ++ r.Copy (d1.drop l.len)

/-- Embeds `func bound(start, end, length int)` (src/main.go): clamps the two
indexes into `[0, length]`, each independently. -/
def bound (start end_ length : Int) : Int × Int :=
  let s := if start < 0 then 0 else if start > length then length else start
  let e := if end_ < 0 then 0 else if end_ > length then length else end_
  (s, e)

/-- Embeds `func (r *Rope[T]) CopySlice(dst []T, start, end int)`
(src/main.go).  Go's `r.value[start:end]` is `(v.drop start).take (end-start)`. -/
def Rope.CopySlice : Rope T → List T → Int → Int → List T
  | r, dst, start, end_ =>
    if start = end_ then dst
    else match r with
      | .leaf v _ => copyList dst ((v.drop start.toNat).take (end_ - start).toNat)
      | .node _ l rr =>
          let p := bound start end_ (l.len : Int)
          let d1 := l.CopySlice dst p.1 p.2
          let k := (p.2 - p.1).toNat
          let q := bound (start - (l.len : Int)) (end_ - (l.len : Int)) (rr.len : Int)
          d1.take k ++ rr.CopySlice (d1.drop k) q.1 q.2

/-- Embeds `func (r *Rope[T]) Value() []T`: allocate `make([]T, r.length)`
(zero values, i.e. `default`) and `Copy` into it. -/
def Rope.Value [Inhabited T] (r : Rope T) : List T :=
  r.Copy (List.replicate r.len default)

/-- Embeds `func (r *Rope[T]) Slice(start, end int) []T`: allocate
`make([]T, end-start)` and `CopySlice` into it. -/
def Rope.Slice [Inhabited T] (r : Rope T) (start end_ : Int) : List T :=
  r.CopySlice (List.replicate (end_ - start).toNat default) start end_

/-- Embeds `func (r *Rope[T]) adjust()` (src/main.go), with fuel for the
mutual recursion through `NewRope`.  The split branch's two
`NewRope(r.value[:r.length/2])` / `NewRope(r.value[r.length/2:])` calls are
written as `adjustF` applied to a fresh leaf, which is exactly `NewRope`'s
definition (see `NewRope` below).  The join branch mirrors the source
verbatim, including its copy of `right` into `r.value[:r.left.length]`
(the prefix of the new buffer). -/
def adjustF [Inhabited T] (s : Settings) : Nat → Rope T → Option (Rope T)
  | 0, _ => none
  | fuel + 1, .leaf v n =>
      if (n : Int) > s.SplitLength then do
        let l ← adjustF s fuel (.leaf (v.take (n / 2)) (v.take (n / 2)).length)
        let r ← adjustF s fuel (.leaf (v.drop (n / 2)) (v.drop (n / 2)).length)
        pure (.node n l r)
      else pure (.leaf v n)
  | _fuel + 1, .node n l r =>
      if (n : Int) < s.JoinLength then
        let b0 : List T := List.replicate n default
        let b1 := l.Copy b0
        let b2 := r.Copy (b1.take l.len) ++ b1.drop l.len
        pure (.leaf b2 n)
      else pure (.node n l r)

/-- Embeds `func NewRope[T any](value []T, settings *Settings) *Rope[T]`:
build a leaf with `length = len(value)` and run `adjust` on it. -/
def NewRope [Inhabited T] (s : Settings) (fuel : Nat) (value : List T) :
    Option (Rope T) :=
  adjustF s fuel (.leaf value value.length)

/-- Embeds `func (r *Rope[T]) Insert(index int, insertion []T)`
(src/main.go).  The leaf branch performs the three `copy` calls into
`make([]T, r.length+len(insertion))` and hands the buffer to `NewRope`;
the node branch rebuilds with the recursed child and summed length. -/
def Rope.Insert [Inhabited T] (s : Settings) (fuel : Nat) :
    Rope T → Int → List T → Option (Rope T)
  | .leaf v n, index, insertion =>
      let idx := index.toNat
      let b0 : List T := List.replicate (n + insertion.length) default
      let b1 := copyList b0 (v.take idx)
      let b2 := b1.take idx ++ copyList (b1.drop idx) insertion
      let b3 := b2.take (idx + insertion.length) ++
        copyList (b2.drop (idx + insertion.length)) (v.drop idx)
      NewRope s fuel b3
  | .node n l r, index, insertion =>
      if index < (l.len : Int) then do
        let l2 ← l.Insert s fuel index insertion
        pure (.node (n + insertion.length) l2 r)
      else do
        let r2 ← r.Insert s fuel (index - (l.len : Int)) insertion
        pure (.node (n + insertion.length) l r2)

/-- Embeds `func (r *Rope[T]) Remove(start, end int)` (src/main.go): identity
when `start == end`; leaf branch copies `value[:start]` and `value[end:]`
into `make([]T, r.length-(end-start))` and hands it to `NewRope`; node
branch clamps the range into each child with `bound`, recurses into both,
sums the lengths and runs `adjust`. -/
def Rope.Remove [Inhabited T] (s : Settings) (fuel : Nat) :
    Rope T → Int → Int → Option (Rope T)
  | r, start, end_ =>
    if start = end_ then pure r
    else match r with
      | .leaf v n =>
          let b0 : List T := List.replicate ((n : Int) - (end_ - start)).toNat default
          let b1 := copyList b0 (v.take start.toNat)
          let b2 := b1.take start.toNat ++ copyList (b1.drop start.toNat) (v.drop end_.toNat)
          NewRope s fuel b2
      | .node _ l rr => do
          let p := bound start end_ (l.len : Int)
          let cl ← l.Remove s fuel p.1 p.2
          let q := bound (start - (l.len : Int)) (end_ - (l.len : Int)) (rr.len : Int)
          let cr ← rr.Remove s fuel q.1 q.2
          adjustF s fuel (.node (cl.len + cr.len) cl cr)

/-- Embeds `func (r *Rope[T]) Rebalance()` (src/main.go).  The float32 ratio
test `float32(left.length)/float32(right.length) > r.settings.Rebalance ||
float32(right.length)/float32(left.length) > r.settings.Rebalance` is
abstracted as the Boolean parameter `cond` applied to the two cached child
lengths; the theorems below hold for every such predicate.  The rebuild
branch embeds `*r = *NewRope(r.Value(), r.settings)`. -/
def Rope.Rebalance [Inhabited T] (s : Settings) (fuel : Nat)
    (cond : Nat → Nat → Bool) : Rope T → Option (Rope T)
  | .leaf v n => pure (.leaf v n)
  | .node n l r =>
      if cond l.len r.len then
        NewRope s fuel (Rope.node n l r).Value
      else do
        let l2 ← l.Rebalance s fuel cond
        let r2 ← r.Rebalance s fuel cond
        pure (.node n l2 r2)

/-- The sequence represented by a rope: in-order concatenation of the leaf
buffers. -/
def itemsOf : Rope T → List T
  | .leaf v _ => v
  | .node _ l r => itemsOf l ++ itemsOf r

/-- The cached-length invariant (spec §3 invariant 1): each leaf's cached
length equals its buffer's size, each internal node's cached length equals
`left.length + right.length`. -/
def WF : Rope T → Bool
  | .leaf v n => n = v.length
  | .node n l r => n = l.len + r.len && WF l && WF r

/-- Embeds the raw Go `Rope[T]` struct at the pointer level (src/main.go):
`value []T` may be nil (`none`), and each of `left`/`right` is a possibly-nil
pointer.  `length` is a Go `int`.  Operations on `GRope` return `none`
exactly where the Go code would dereference a nil pointer (or run out of
fuel in `gNewRope`). -/
inductive GRope (T : Type) where
  | mk (value : Option (List T)) (length : Int)
      (left : Option (GRope T)) (right : Option (GRope T))

/-- The cached `length` field of a raw rope node. -/
def GRope.len : GRope T → Int
  | .mk _ n _ _ => n

/-- `Copy` on the raw struct: `none` when a nil child is dereferenced. -/
def gCopy : GRope T → List T → Option (List T)
  | .mk (some v) _ _ _, dst => some (copyList dst v)
  | .mk none _ (some l) (some r), dst => do
      let d1 ← gCopy l dst
      let d2 ← gCopy r (d1.drop l.len.toNat)
      pure (d1.take l.len.toNat ++ d2)
  | .mk none _ _ _, _ => none

/-- `adjust` on the raw struct, with fuel for the recursion through
`NewRope`.  The split branch sets `value` to nil and both children to fresh
`NewRope`s of the half-buffers; the join branch dereferences both children
(nil → `none`) and produces a childless node with a non-nil buffer. -/
def gAdjustF [Inhabited T] (s : Settings) : Nat → GRope T → Option (GRope T)
  | 0, _ => none
  | fuel + 1, .mk (some v) n l r =>
      if n > s.SplitLength then do
        let lft ← gAdjustF s fuel
          (.mk (some (v.take (n / 2).toNat)) (v.take (n / 2).toNat).length none none)
        let rgt ← gAdjustF s fuel
          (.mk (some (v.drop (n / 2).toNat)) (v.drop (n / 2).toNat).length none none)
        pure (.mk none n (some lft) (some rgt))
      else pure (.mk (some v) n l r)
  | _fuel + 1, .mk none n l r =>
      if n < s.JoinLength then do
        let b0 : List T := List.replicate n.toNat default
        let lft ← l
        let b1 ← gCopy lft b0
        let rgt ← r
        let pre ← gCopy rgt (b1.take lft.len.toNat)
        pure (.mk (some (pre ++ b1.drop lft.len.toNat)) n none none)
      else pure (.mk none n l r)

/-- `NewRope` on the raw struct, from a non-nil buffer. -/
def gNewRope [Inhabited T] (s : Settings) (fuel : Nat) (value : List T) :
    Option (GRope T) :=
  gAdjustF s fuel (.mk (some value) value.length none none)

/-- `Insert` on the raw struct: the internal branch reads `left.length`
(nil left → `none`) and recurses into one child (nil right → `none`). -/
def gInsert [Inhabited T] (s : Settings) (fuel : Nat) :
    GRope T → Int → List T → Option (GRope T)
  | .mk (some v) n _ _, index, insertion =>
      let idx := index.toNat
      let b0 : List T := List.replicate (n + insertion.length).toNat default
      let b1 := copyList b0 (v.take idx)
      let b2 := b1.take idx ++ copyList (b1.drop idx) insertion
      let b3 := b2.take (idx + insertion.length) ++
        copyList (b2.drop (idx + insertion.length)) (v.drop idx)
      gNewRope s fuel b3
  | .mk none n (some l) (some rr), index, insertion =>
      if index < l.len then do
        let l2 ← gInsert s fuel l index insertion
        pure (.mk none (n + insertion.length) (some l2) (some rr))
      else do
        let r2 ← gInsert s fuel rr (index - l.len) insertion
        pure (.mk none (n + insertion.length) (some l) (some r2))
  | .mk none n (some l) none, index, insertion =>
      if index < l.len then do
        let l2 ← gInsert s fuel l index insertion
        pure (.mk none (n + insertion.length) (some l2) none)
      else none
  | .mk none _ none _, _, _ => none

/-- `Remove` on the raw struct: identity when `start == end`; the internal
branch dereferences both children. -/
def gRemove [Inhabited T] (s : Settings) (fuel : Nat) :
    GRope T → Int → Int → Option (GRope T)
  | g, start, end_ =>
    if start = end_ then pure g
    else match g with
      | .mk (some v) n _ _ =>
          let b0 : List T := List.replicate (n - (end_ - start)).toNat default
          let b1 := copyList b0 (v.take start.toNat)
          let b2 := b1.take start.toNat ++
            copyList (b1.drop start.toNat) (v.drop end_.toNat)
          gNewRope s fuel b2
      | .mk none _ (some l) (some rr) => do
          let p := bound start end_ l.len
          let cl ← gRemove s fuel l p.1 p.2
          let q := bound (start - l.len) (end_ - l.len) rr.len
          let cr ← gRemove s fuel rr q.1 q.2
          gAdjustF s fuel (.mk none (cl.len + cr.len) (some cl) (some cr))
      | .mk none _ _ _ => none

/-- `CopySlice` on the raw struct. -/
def gCopySlice : GRope T → List T → Int → Int → Option (List T)
  | g, dst, start, end_ =>
    if start = end_ then some dst
    else match g with
      | .mk (some v) _ _ _ =>
          some (copyList dst ((v.drop start.toNat).take (end_ - start).toNat))
      | .mk none _ (some l) (some rr) => do
          let p := bound start end_ l.len
          let d1 ← gCopySlice l dst p.1 p.2
          let k := (p.2 - p.1).toNat
          let q := bound (start - l.len) (end_ - l.len) rr.len
          let d2 ← gCopySlice rr (d1.drop k) q.1 q.2
          pure (d1.take k ++ d2)
      | .mk none _ _ _ => none

/-- `Value` on the raw struct: `Copy` into `make([]T, r.length)`. -/
def gValue [Inhabited T] (g : GRope T) : Option (List T) :=
  gCopy g (List.replicate g.len.toNat default)

/-- `Rebalance` on the raw struct, with fuel for the rebuild through
`NewRope`.  A leaf (non-nil buffer) returns unchanged.  On a node with nil
buffer the Go code first reads `r.left.length` and `r.right.length` for the
float32 ratio test — a nil child is dereferenced there, embedded as the
`none` fallthrough arm — then either rebuilds via
`NewRope(r.Value(), r.settings)` (embedded as `gValue` then `gNewRope`, and
`*r = *rebalancedRope` as returning the rebuilt node) or recurses into both
children in place.  As in `Rope.Rebalance`, the float32 ratio test itself
is abstracted as the Boolean predicate `cond` on the two cached child
lengths; the theorems below hold for every such predicate. -/
def gRebalance [Inhabited T] (s : Settings) (fuel : Nat)
    (cond : Int → Int → Bool) : GRope T → Option (GRope T)
  | .mk (some v) n l r => pure (.mk (some v) n l r)
  | .mk none n (some l) (some r) =>
      if cond l.len r.len then do
        let val ← gValue (.mk none n (some l) (some r))
        gNewRope s fuel val
      else do
        let l2 ← gRebalance s fuel cond l
        let r2 ← gRebalance s fuel cond r
        pure (.mk none n (some l2) (some r2))
  | .mk none _ _ _ => none

/-- The largest cached `length` field over all nodes of a raw rope,
truncated to `Nat`.  It bounds the buffer length of every `NewRope` call
that `Rebalance`'s rebuild branch can make, and hence the fuel it needs. -/
def gMaxLen : GRope T → Nat
  | .mk _ n (some l) (some r) => max n.toNat (max (gMaxLen l) (gMaxLen r))
  | .mk _ n (some l) none => max n.toNat (gMaxLen l)
  | .mk _ n none (some r) => max n.toNat (gMaxLen r)
  | .mk _ n none none => n.toNat

/-- The shape invariant of claim C10: every reachable node is either a leaf
(non-nil buffer, no children) or an internal node (nil buffer, both
children present). -/
inductive Shaped : GRope T → Prop where
  | leaf (v : List T) (n : Int) : Shaped (.mk (some v) n none none)
  | node (n : Int) (l r : GRope T) : Shaped l → Shaped r →
      Shaped (.mk none n (some l) (some r))

theorem copyList_length (dst src : List T) :
    (copyList dst src).length = dst.length := by
  simp [copyList]; omega

theorem copyList_nil (y : List T) : copyList [] y = [] := by
  simp [copyList]

theorem copyList_of_length_le {src dst : List T} (h : src.length ≤ dst.length) :
    copyList dst src = src ++ dst.drop src.length := by
  simp [copyList, List.take_of_length_le h]

theorem copyList_of_length_eq {src dst : List T} (h : src.length = dst.length) :
    copyList dst src = src := by
  simp [copyList, List.take_of_length_le h.le, List.drop_eq_nil_of_le h.ge]

theorem copyList_replicate (src : List T) (k : Nat) (d : T) :
    copyList (List.replicate k d) src =
      src.take k ++ List.replicate (k - src.length) d := by
  simp [copyList, List.drop_replicate]

theorem copyList_append (dst x y : List T) :
    copyList dst (x ++ y) =
      (copyList dst x).take x.length ++
        copyList ((copyList dst x).drop x.length) y := by
  rcases le_or_lt x.length dst.length with h | h
  · rw [copyList_of_length_le h, List.take_left, List.drop_left]
    simp only [copyList, List.length_append, List.take_append_eq_append_take,
      List.take_of_length_le h, List.length_drop, List.drop_drop,
      List.append_assoc]
  · have hd : List.drop x.length dst = [] := List.drop_eq_nil_of_le h.le
    have hc : copyList dst x = List.take dst.length x := by
      simp [copyList, hd]
    have hlen : (List.take dst.length x).length = dst.length := by
      simp [List.length_take]; omega
    have h2 : List.take x.length (List.take dst.length x) =
        List.take dst.length x :=
      List.take_of_length_le (by rw [hlen]; exact h.le)
    have h3 : List.drop x.length (List.take dst.length x) = [] :=
      List.drop_eq_nil_of_le (by rw [hlen]; exact h.le)
    rw [hc, h2, h3, copyList_nil, List.append_nil]
    simp only [copyList, List.length_append, List.take_append_eq_append_take,
      Nat.sub_eq_zero_of_le h.le, List.take_zero, List.append_nil]
    rw [List.drop_eq_nil_of_le (by omega), List.append_nil]

theorem Copy_length (r : Rope T) (dst : List T) :
    (r.Copy dst).length = dst.length := by
  induction r generalizing dst with
  | leaf v n => simp [Rope.Copy, copyList_length]
  | node n l rr ihl ihr =>
      simp only [Rope.Copy, List.length_append, List.length_take, ihl, ihr,
        List.length_drop]
      omega

theorem items_length {r : Rope T} (h : WF r) :
    (itemsOf r).length = r.len := by
  induction r with
  | leaf v n =>
      simp only [WF, decide_eq_true_eq] at h
      simp [itemsOf, Rope.len, h]
  | node n l rr ihl ihr =>
      simp only [WF, Bool.and_eq_true, decide_eq_true_eq] at h
      obtain ⟨⟨hn, hl⟩, hr⟩ := h
      simp [itemsOf, Rope.len, ihl hl, ihr hr, hn]

theorem Copy_spec {r : Rope T} (h : WF r) (dst : List T) :
    r.Copy dst = copyList dst (itemsOf r) := by
  induction r generalizing dst with
  | leaf v n => simp [Rope.Copy, itemsOf]
  | node n l rr ihl ihr =>
      simp only [WF, Bool.and_eq_true, decide_eq_true_eq] at h
      obtain ⟨⟨hn, hl⟩, hr⟩ := h
      have hll : (itemsOf l).length = l.len := items_length hl
      simp only [Rope.Copy, itemsOf, ihl hl, ihr hr]
      rw [copyList_append, hll]

theorem Value_eq {r : Rope T} [Inhabited T] (h : WF r) :
    r.Value = itemsOf r := by
  rw [Rope.Value, Copy_spec h, copyList_of_length_eq]
  simp [items_length h]

theorem newRope_spec [Inhabited T] {s : Settings} :
    ∀ {fuel : Nat} {v : List T} {r : Rope T},
      NewRope s fuel v = some r → WF r ∧ itemsOf r = v := by
  intro fuel
  induction fuel with
  | zero => intro v r h; simp [NewRope, adjustF] at h
  | succ fuel ih =>
      intro v r h
      simp only [NewRope, adjustF] at h
      split at h
      · simp only [bind, Option.bind_eq_some, Option.pure_def,
          Option.some.injEq] at h
        obtain ⟨l2, hl2, r2, hr2, hr⟩ := h
        subst hr
        obtain ⟨hwl, hil⟩ := ih hl2
        obtain ⟨hwr, hir⟩ := ih hr2
        have h1 : l2.len = (v.take (v.length / 2)).length := by
          rw [← items_length hwl, hil]
        have h2 : r2.len = (v.drop (v.length / 2)).length := by
          rw [← items_length hwr, hir]
        refine ⟨?_, ?_⟩
        · simp only [WF, Bool.and_eq_true, decide_eq_true_eq]
          refine ⟨⟨?_, hwl⟩, hwr⟩
          rw [h1, h2, List.length_take, List.length_drop]
          omega
        · rw [itemsOf, hil, hir, List.take_append_drop]
      · simp only [Option.pure_def, Option.some.injEq] at h
        subst h
        exact ⟨by simp [WF], rfl⟩

theorem newRope_len [Inhabited T] {s : Settings} {fuel : Nat} {v : List T}
    {r : Rope T} (h : NewRope s fuel v = some r) : r.len = v.length := by
  obtain ⟨hw, hi⟩ := newRope_spec h
  rw [← items_length hw, hi]

theorem adjustF_wf [Inhabited T] {s : Settings} {fuel : Nat} {r r2 : Rope T}
    (hw : WF r) (h : adjustF s fuel r = some r2) : WF r2 ∧ r2.len = r.len := by
  cases fuel with
  | zero => simp [adjustF] at h
  | succ fuel =>
      cases r with
      | leaf v n =>
          simp only [WF, decide_eq_true_eq] at hw
          subst hw
          have heq : adjustF s (fuel + 1) (.leaf v v.length) =
              NewRope s (fuel + 1) v := rfl
          rw [heq] at h
          obtain ⟨hw2, hi2⟩ := newRope_spec h
          refine ⟨hw2, ?_⟩
          rw [← items_length hw2, hi2, Rope.len]
      | node n l rr =>
          simp only [adjustF] at h
          split at h
          · simp only [Option.pure_def, Option.some.injEq] at h
            subst h
            refine ⟨?_, rfl⟩
            simp only [WF, decide_eq_true_eq, List.length_append, Copy_length,
              List.length_take, List.length_drop, List.length_replicate]
            omega
          · simp only [Option.pure_def, Option.some.injEq] at h
            subst h
            exact ⟨hw, rfl⟩

theorem insert_len [Inhabited T] {s : Settings} {fuel : Nat} :
    ∀ {r : Rope T} {i : Int} {X : List T} {r2 : Rope T},
      r.Insert s fuel i X = some r2 → r2.len = r.len + X.length := by
  intro r
  induction r with
  | leaf v n =>
      intro i X r2 h
      simp only [Rope.Insert] at h
      rw [newRope_len h, Rope.len]
      simp only [List.length_append, List.length_take, copyList_length,
        List.length_drop, List.length_replicate]
      omega
  | node n l rr ihl ihr =>
      intro i X r2 h
      simp only [Rope.Insert] at h
      split at h <;>
        · simp only [bind, Option.bind_eq_some, Option.pure_def,
            Option.some.injEq] at h
          obtain ⟨c2, hc2, hr⟩ := h
          subst hr
          simp [Rope.len]

theorem insert_spec [Inhabited T] {s : Settings} {fuel : Nat} :
    ∀ {r : Rope T} {i : Int} {X : List T} {r2 : Rope T},
      WF r → 0 ≤ i → i ≤ (r.len : Int) → r.Insert s fuel i X = some r2 →
      WF r2 ∧ itemsOf r2 =
        (itemsOf r).take i.toNat ++ X ++ (itemsOf r).drop i.toNat := by
  intro r
  induction r with
  | leaf v n =>
      intro i X r2 hw h0 hle h
      simp only [WF, decide_eq_true_eq] at hw
      subst hw
      simp only [Rope.len] at hle
      simp only [Rope.Insert] at h
      set idx := i.toNat with hidx
      have hidxle : idx ≤ v.length := by omega
      have hl1 : (v.take idx).length = idx := by
        simp [List.length_take]; omega
      obtain ⟨hw2, hi2⟩ := newRope_spec h
      refine ⟨hw2, ?_⟩
      rw [hi2]
      simp only [itemsOf]
      have e1 : copyList (List.replicate (v.length + X.length) (default : T))
          (v.take idx) = v.take idx ++
            List.replicate (v.length + X.length - idx) (default : T) := by
        rw [copyList_replicate, hl1,
          List.take_of_length_le (by rw [hl1]; omega)]
      have e2 : (v.take idx ++
          List.replicate (v.length + X.length - idx) (default : T)).take idx =
          v.take idx := List.take_left' hl1
      have e3 : (v.take idx ++
          List.replicate (v.length + X.length - idx) (default : T)).drop idx =
          List.replicate (v.length + X.length - idx) (default : T) :=
        List.drop_left' hl1
      have e4 : copyList
          (List.replicate (v.length + X.length - idx) (default : T)) X =
          X ++ List.replicate (v.length - idx) (default : T) := by
        rw [copyList_replicate, List.take_of_length_le (by omega),
          show v.length + X.length - idx - X.length = v.length - idx by omega]
      simp only [e1, e2, e3, e4]
      have e5 : (v.take idx ++
          (X ++ List.replicate (v.length - idx) (default : T))).take
            (idx + X.length) = v.take idx ++ X := by
        rw [← List.append_assoc]
        exact List.take_left' (by simp [hl1])
      have e6 : (v.take idx ++
          (X ++ List.replicate (v.length - idx) (default : T))).drop
            (idx + X.length) = List.replicate (v.length - idx) (default : T) := by
        rw [← List.append_assoc]
        exact List.drop_left' (by simp [hl1])
      have e7 : copyList (List.replicate (v.length - idx) (default : T))
          (v.drop idx) = v.drop idx :=
        copyList_of_length_eq (by simp)
      simp only [e5, e6, e7]
  | node n l rr ihl ihr =>
      intro i X r2 hw h0 hle h
      simp only [WF, Bool.and_eq_true, decide_eq_true_eq] at hw
      obtain ⟨⟨hn, hwl⟩, hwr⟩ := hw
      have hll : (itemsOf l).length = l.len := items_length hwl
      have hrl : (itemsOf rr).length = rr.len := items_length hwr
      simp only [Rope.len] at hle
      simp only [Rope.Insert] at h
      split at h
      · rename_i hlt
        simp only [bind, Option.bind_eq_some, Option.pure_def,
          Option.some.injEq] at h
        obtain ⟨l2, hl2, hr⟩ := h
        subst hr
        obtain ⟨hwl2, hil2⟩ := ihl hwl h0 (le_of_lt hlt) hl2
        have hlen2 : l2.len = l.len + X.length := insert_len hl2
        constructor
        · simp only [WF, Bool.and_eq_true, decide_eq_true_eq]
          exact ⟨⟨by omega, hwl2⟩, hwr⟩
        · simp only [itemsOf, hil2]
          have hidx : i.toNat ≤ (itemsOf l).length := by rw [hll]; omega
          rw [List.take_append_of_le_length hidx,
            List.drop_append_of_le_length hidx]
          simp [List.append_assoc]
      · rename_i hge
        simp only [bind, Option.bind_eq_some, Option.pure_def,
          Option.some.injEq] at h
        obtain ⟨c2, hc2, hr⟩ := h
        subst hr
        obtain ⟨hwc2, hic2⟩ := ihr hwr (by omega) (by omega) hc2
        have hlen2 : c2.len = rr.len + X.length := insert_len hc2
        constructor
        · simp only [WF, Bool.and_eq_true, decide_eq_true_eq]
          exact ⟨⟨by omega, hwl⟩, hwc2⟩
        · simp only [itemsOf, hic2]
          have hj : (i - (l.len : Int)).toNat =
              i.toNat - (itemsOf l).length := by rw [hll]; omega
          have hgei : (itemsOf l).length ≤ i.toNat := by rw [hll]; omega
          rw [List.take_append_eq_append_take, List.drop_append_eq_append_drop,
            List.take_of_length_le hgei, List.drop_eq_nil_of_le hgei, hj]
          simp [List.append_assoc]

theorem remove_wf [Inhabited T] {s : Settings} {fuel : Nat} :
    ∀ {r : Rope T} {a b : Int} {r2 : Rope T},
      WF r → r.Remove s fuel a b = some r2 → WF r2 := by
  intro r
  induction r with
  | leaf v n =>
      intro a b r2 hw h
      rw [Rope.Remove] at h
      split at h
      · simp only [Option.pure_def, Option.some.injEq] at h
        subst h; exact hw
      · exact (newRope_spec h).1
  | node n l rr ihl ihr =>
      intro a b r2 hw h
      rw [Rope.Remove] at h
      split at h
      · simp only [Option.pure_def, Option.some.injEq] at h
        subst h; exact hw
      · simp only [WF, Bool.and_eq_true, decide_eq_true_eq] at hw
        obtain ⟨⟨hn, hwl⟩, hwr⟩ := hw
        simp only [bind, Option.bind_eq_some] at h
        obtain ⟨cl, hcl, cr, hcr, hadj⟩ := h
        have hwn : WF (Rope.node (cl.len + cr.len) cl cr) := by
          simp [WF, ihl hwl hcl, ihr hwr hcr]
        exact (adjustF_wf hwn hadj).1

theorem rebalance_spec [Inhabited T] {s : Settings} {fuel : Nat}
    {cond : Nat → Nat → Bool} :
    ∀ {r r2 : Rope T}, WF r → r.Rebalance s fuel cond = some r2 →
      WF r2 ∧ itemsOf r2 = itemsOf r := by
  intro r
  induction r with
  | leaf v n =>
      intro r2 hw h
      simp only [Rope.Rebalance, Option.pure_def, Option.some.injEq] at h
      subst h; exact ⟨hw, rfl⟩
  | node n l rr ihl ihr =>
      intro r2 hw h
      simp only [Rope.Rebalance] at h
      split at h
      · obtain ⟨hw2, hi2⟩ := newRope_spec h
        exact ⟨hw2, by rw [hi2, Value_eq hw]⟩
      · simp only [WF, Bool.and_eq_true, decide_eq_true_eq] at hw
        obtain ⟨⟨hn, hwl⟩, hwr⟩ := hw
        simp only [bind, Option.bind_eq_some, Option.pure_def,
          Option.some.injEq] at h
        obtain ⟨l2, hl2, c2, hc2, hr⟩ := h
        subst hr
        obtain ⟨hwl2, hil2⟩ := ihl hwl hl2
        obtain ⟨hwc2, hic2⟩ := ihr hwr hc2
        refine ⟨?_, ?_⟩
        · simp only [WF, Bool.and_eq_true, decide_eq_true_eq]
          refine ⟨⟨?_, hwl2⟩, hwc2⟩
          have h1 : l2.len = l.len := by
            rw [← items_length hwl2, hil2, items_length hwl]
          have h2 : c2.len = rr.len := by
            rw [← items_length hwc2, hic2, items_length hwr]
          omega
        · simp only [itemsOf, hil2, hic2]

theorem newRope_total [Inhabited T] {s : Settings} (hs : 1 ≤ s.SplitLength) :
    ∀ (fuel : Nat) (v : List T), v.length < fuel →
      ∃ r, NewRope s fuel v = some r := by
  intro fuel
  induction fuel with
  | zero => intro v h; omega
  | succ fuel ih =>
      intro v h
      by_cases hgt : ((v.length : Int) > s.SplitLength)
      · have h2 : 2 ≤ v.length := by omega
        obtain ⟨l2, hl2⟩ := ih (v.take (v.length / 2))
          (by simp [List.length_take]; omega)
        obtain ⟨r2, hr2⟩ := ih (v.drop (v.length / 2))
          (by simp [List.length_drop]; omega)
        have hl2' : adjustF s fuel
            (Rope.leaf (v.take (v.length / 2)) (v.length / 2 ⊓ v.length)) =
            some l2 := by
          rw [show v.length / 2 ⊓ v.length = (v.take (v.length / 2)).length by
            simp [List.length_take]]
          exact hl2
        have hr2' : adjustF s fuel
            (Rope.leaf (v.drop (v.length / 2)) (v.length - v.length / 2)) =
            some r2 := by
          rw [show v.length - v.length / 2 = (v.drop (v.length / 2)).length by
            simp [List.length_drop]]
          exact hr2
        refine ⟨.node v.length l2 r2, ?_⟩
        rw [NewRope, adjustF]
        simp [hgt, hl2', hr2']
      · refine ⟨.leaf v v.length, ?_⟩
        rw [NewRope, adjustF]
        simp [hgt]

theorem bound_eq {a b L : Int} (h : 0 ≤ L) :
    bound a b L = (max 0 (min a L), max 0 (min b L)) := by
  simp only [bound, Prod.mk.injEq]
  constructor <;> (split_ifs <;> omega)

theorem extract_append (IL IR : List T) (a b ll rl : Int)
    (hl : (IL.length : Int) = ll) (hr2 : (IR.length : Int) = rl)
    (h0 : 0 ≤ a) (hab : a ≤ b) (hb : b ≤ ll + rl) :
    ((IL ++ IR).drop a.toNat).take (b - a).toNat =
      (IL.drop (max 0 (min a ll)).toNat).take
          (max 0 (min b ll) - max 0 (min a ll)).toNat ++
        (IR.drop (max 0 (min (a - ll) rl)).toNat).take
          (max 0 (min (b - ll) rl) - max 0 (min (a - ll) rl)).toNat := by
  subst hl
  subst hr2
  rw [List.drop_append_eq_append_drop, List.take_append_eq_append_take]
  rcases le_or_lt b (IL.length : Int) with hble | hbgt
  · have e1 : max 0 (min a (IL.length : Int)) = a := by omega
    have e2 : max 0 (min b (IL.length : Int)) = b := by omega
    have e3 : max 0 (min (a - (IL.length : Int)) (IR.length : Int)) = 0 := by
      omega
    have e4 : max 0 (min (b - (IL.length : Int)) (IR.length : Int)) = 0 := by
      omega
    rw [e1, e2, e3, e4]
    have e5 : a.toNat - IL.length = 0 := by omega
    have e6 : (b - a).toNat - (IL.drop a.toNat).length = 0 := by
      simp only [List.length_drop]; omega
    rw [e5, e6]
    simp
  · rcases le_or_lt (IL.length : Int) a with hage | half
    · have e1 : max 0 (min a (IL.length : Int)) = (IL.length : Int) := by omega
      have e2 : max 0 (min b (IL.length : Int)) = (IL.length : Int) := by omega
      have e3 : max 0 (min (a - (IL.length : Int)) (IR.length : Int)) =
          a - (IL.length : Int) := by omega
      have e4 : max 0 (min (b - (IL.length : Int)) (IR.length : Int)) =
          b - (IL.length : Int) := by omega
      rw [e1, e2, e3, e4]
      have e5 : IL.drop a.toNat = [] := List.drop_eq_nil_of_le (by omega)
      have e6 : a.toNat - IL.length = (a - (IL.length : Int)).toNat := by omega
      have e7 : (b - (IL.length : Int) - (a - (IL.length : Int))).toNat =
          (b - a).toNat := by omega
      rw [e5, e6, e7]
      simp
    · have e1 : max 0 (min a (IL.length : Int)) = a := by omega
      have e2 : max 0 (min b (IL.length : Int)) = (IL.length : Int) := by omega
      have e3 : max 0 (min (a - (IL.length : Int)) (IR.length : Int)) = 0 := by
        omega
      have e4 : max 0 (min (b - (IL.length : Int)) (IR.length : Int)) =
          b - (IL.length : Int) := by omega
      rw [e1, e2, e3, e4]
      have e5 : a.toNat - IL.length = 0 := by omega
      have e6 : (IL.drop a.toNat).take (b - a).toNat = IL.drop a.toNat :=
        List.take_of_length_le (by simp only [List.length_drop]; omega)
      have e7 : (IL.drop a.toNat).take ((IL.length : Int) - a).toNat =
          IL.drop a.toNat :=
        List.take_of_length_le (by simp only [List.length_drop]; omega)
      have e8 : (b - a).toNat - (IL.drop a.toNat).length =
          (b - (IL.length : Int)).toNat := by
        simp only [List.length_drop]; omega
      rw [e5, e6, e7, e8]
      simp

theorem csl_spec [Inhabited T] :
    ∀ {r : Rope T}, WF r → ∀ {a b : Int} (dst : List T), 0 ≤ a → a ≤ b →
      b ≤ (r.len : Int) →
      r.CopySlice dst a b =
        copyList dst (((itemsOf r).drop a.toNat).take (b - a).toNat) := by
  intro r
  induction r with
  | leaf v n =>
      intro hw a b dst h0 hab hb
      rw [Rope.CopySlice]
      split
      · rename_i heq
        subst heq
        simp [copyList]
      · rfl
  | node n l rr ihl ihr =>
      intro hw a b dst h0 hab hb
      simp only [WF, Bool.and_eq_true, decide_eq_true_eq] at hw
      obtain ⟨⟨hn, hwl⟩, hwr⟩ := hw
      have hll : (itemsOf l).length = l.len := items_length hwl
      have hrl : (itemsOf rr).length = rr.len := items_length hwr
      simp only [Rope.len] at hb
      rw [Rope.CopySlice]
      split
      · rename_i heq
        subst heq
        simp [copyList]
      · rename_i hne
        rw [bound_eq (Int.natCast_nonneg _), bound_eq (Int.natCast_nonneg _)]
        simp only
        have hA0 : 0 ≤ max 0 (min a (l.len : Int)) := by omega
        have hAB : max 0 (min a (l.len : Int)) ≤ max 0 (min b (l.len : Int)) := by
          omega
        have hBle : max 0 (min b (l.len : Int)) ≤ ((l.len : Nat) : Int) := by
          omega
        have hA20 : 0 ≤ max 0 (min (a - (l.len : Int)) (rr.len : Int)) := by
          omega
        have hA2B2 : max 0 (min (a - (l.len : Int)) (rr.len : Int)) ≤
            max 0 (min (b - (l.len : Int)) (rr.len : Int)) := by omega
        have hB2le : max 0 (min (b - (l.len : Int)) (rr.len : Int)) ≤
            ((rr.len : Nat) : Int) := by omega
        rw [ihl hwl dst hA0 hAB hBle]
        rw [ihr hwr _ hA20 hA2B2 hB2le]
        have hL1 : (((itemsOf l).drop
            (max 0 (min a (l.len : Int))).toNat).take
              (max 0 (min b (l.len : Int)) -
                max 0 (min a (l.len : Int))).toNat).length =
            (max 0 (min b (l.len : Int)) -
              max 0 (min a (l.len : Int))).toNat := by
          simp only [List.length_take, List.length_drop, hll]
          omega
        rw [show itemsOf (Rope.node n l rr) = itemsOf l ++ itemsOf rr from rfl]
        rw [extract_append (itemsOf l) (itemsOf rr) a b (l.len : Int)
          (rr.len : Int) (by rw [hll]) (by rw [hrl]) h0 hab (by omega)]
        rw [copyList_append, hL1]

theorem gAdjustF_shaped [Inhabited T] {s : Settings} :
    ∀ {fuel : Nat} {g g2 : GRope T}, Shaped g →
      gAdjustF s fuel g = some g2 → Shaped g2 := by
  intro fuel
  induction fuel with
  | zero => intro g g2 _ h; simp [gAdjustF] at h
  | succ fuel ih =>
      intro g g2 hs h
      cases hs with
      | leaf v n =>
          simp only [gAdjustF] at h
          split at h
          · simp only [bind, Option.bind_eq_some, Option.pure_def,
              Option.some.injEq] at h
            obtain ⟨l2, hl2, r2, hr2, hg⟩ := h
            subst hg
            exact Shaped.node n l2 r2 (ih (Shaped.leaf _ _) hl2)
              (ih (Shaped.leaf _ _) hr2)
          · simp only [Option.pure_def, Option.some.injEq] at h
            subst h
            exact Shaped.leaf v n
      | node n l r hsl hsr =>
          simp only [gAdjustF] at h
          split at h
          · simp only [bind, Option.some_bind, Option.bind_eq_some,
              Option.pure_def, Option.some.injEq] at h
            obtain ⟨b1, hb1, pre, hpre, hg⟩ := h
            subst hg
            exact Shaped.leaf _ _
          · simp only [Option.pure_def, Option.some.injEq] at h
            subst h
            exact Shaped.node n l r hsl hsr

theorem gNewRope_shaped [Inhabited T] {s : Settings} {fuel : Nat}
    {v : List T} {g : GRope T} (h : gNewRope s fuel v = some g) : Shaped g :=
  gAdjustF_shaped (Shaped.leaf v v.length) h

theorem gInsert_shaped [Inhabited T] {s : Settings} {fuel : Nat} :
    ∀ {g : GRope T} {i : Int} {X : List T} {g2 : GRope T}, Shaped g →
      gInsert s fuel g i X = some g2 → Shaped g2 := by
  intro g i X g2 hs
  induction hs generalizing i g2 with
  | leaf v n =>
      intro h
      simp only [gInsert] at h
      exact gNewRope_shaped h
  | node n l r hsl hsr ihl ihr =>
      intro h
      simp only [gInsert] at h
      split at h
      · simp only [bind, Option.bind_eq_some, Option.pure_def,
          Option.some.injEq] at h
        obtain ⟨l2, hl2, hg⟩ := h
        subst hg
        exact Shaped.node _ _ _ (ihl hl2) hsr
      · simp only [bind, Option.bind_eq_some, Option.pure_def,
          Option.some.injEq] at h
        obtain ⟨r2, hr2, hg⟩ := h
        subst hg
        exact Shaped.node _ _ _ hsl (ihr hr2)

theorem gRemove_shaped [Inhabited T] {s : Settings} {fuel : Nat} :
    ∀ {g : GRope T} {a b : Int} {g2 : GRope T}, Shaped g →
      gRemove s fuel g a b = some g2 → Shaped g2 := by
  intro g a b g2 hs
  induction hs generalizing a b g2 with
  | leaf v n =>
      intro h
      rw [gRemove] at h
      split at h
      · simp only [Option.pure_def, Option.some.injEq] at h
        subst h
        exact Shaped.leaf v n
      · exact gNewRope_shaped h
  | node n l r hsl hsr ihl ihr =>
      intro h
      rw [gRemove] at h
      split at h
      · simp only [Option.pure_def, Option.some.injEq] at h
        subst h
        exact Shaped.node n l r hsl hsr
      · simp only [bind, Option.bind_eq_some] at h
        obtain ⟨cl, hcl, cr, hcr, hadj⟩ := h
        exact gAdjustF_shaped (Shaped.node _ _ _ (ihl hcl) (ihr hcr)) hadj

theorem gCopy_isSome :
    ∀ {g : GRope T} (dst : List T), Shaped g → (gCopy g dst).isSome = true := by
  intro g dst hs
  induction hs generalizing dst with
  | leaf v n => simp [gCopy]
  | node n l r hsl hsr ihl ihr =>
      obtain ⟨d1, hd1⟩ := Option.isSome_iff_exists.mp (ihl dst)
      obtain ⟨d2, hd2⟩ :=
        Option.isSome_iff_exists.mp (ihr (d1.drop l.len.toNat))
      simp [gCopy, hd1, hd2]

theorem gCopySlice_isSome :
    ∀ {g : GRope T} (dst : List T) (a b : Int), Shaped g →
      (gCopySlice g dst a b).isSome = true := by
  intro g dst a b hs
  induction hs generalizing dst a b with
  | leaf v n =>
      rw [gCopySlice]
      split <;> simp
  | node n l r hsl hsr ihl ihr =>
      rw [gCopySlice]
      split
      · simp
      · obtain ⟨d1, hd1⟩ := Option.isSome_iff_exists.mp
          (ihl dst (bound a b l.len).1 (bound a b l.len).2)
        obtain ⟨d2, hd2⟩ := Option.isSome_iff_exists.mp
          (ihr (d1.drop ((bound a b l.len).2 - (bound a b l.len).1).toNat)
            (bound (a - l.len) (b - l.len) r.len).1
            (bound (a - l.len) (b - l.len) r.len).2)
        simp [hd1, hd2]

theorem gCopy_length :
    ∀ {g : GRope T} (dst d : List T), Shaped g → gCopy g dst = some d →
      d.length = dst.length := by
  intro g dst d hs
  induction hs generalizing dst d with
  | leaf v n =>
      intro h
      simp only [gCopy, Option.some.injEq] at h
      subst h
      exact copyList_length _ _
  | node n l r hsl hsr ihl ihr =>
      intro h
      simp only [gCopy, bind, Option.bind_eq_some, Option.pure_def,
        Option.some.injEq] at h
      obtain ⟨d1, hd1, d2, hd2, hd⟩ := h
      subst hd
      have e1 := ihl dst d1 hd1
      have e2 := ihr (d1.drop l.len.toNat) d2 hd2
      simp only [List.length_append, List.length_take, e1, e2,
        List.length_drop]
      omega

theorem gNewRope_total [Inhabited T] {s : Settings}
    (hsp : 1 ≤ s.SplitLength) :
    ∀ (fuel : Nat) (v : List T), v.length < fuel →
      ∃ g, gNewRope s fuel v = some g := by
  intro fuel
  induction fuel with
  | zero => intro v h; omega
  | succ fuel ih =>
      intro v h
      by_cases hgt : (((v.length : Nat) : Int) > s.SplitLength)
      · have h2 : 2 ≤ v.length := by omega
        have hdiv : (((v.length : Nat) : Int) / 2).toNat = v.length / 2 := by
          omega
        obtain ⟨g1, hg1⟩ := ih (v.take (v.length / 2))
          (by simp [List.length_take]; omega)
        obtain ⟨g2, hg2⟩ := ih (v.drop (v.length / 2))
          (by simp [List.length_drop]; omega)
        have hg1' : gAdjustF s fuel (GRope.mk (some (v.take (v.length / 2)))
            ((v.length / 2 ⊓ v.length : Nat) : Int) none none) = some g1 := by
          rw [show v.length / 2 ⊓ v.length = (v.take (v.length / 2)).length by
            simp [List.length_take]]
          exact hg1
        have hg2' : gAdjustF s fuel (GRope.mk (some (v.drop (v.length / 2)))
            ((v.length - v.length / 2 : Nat) : Int) none none) = some g2 := by
          rw [show v.length - v.length / 2 = (v.drop (v.length / 2)).length by
            simp [List.length_drop]]
          exact hg2
        have hg1'' : gAdjustF s fuel (GRope.mk (some (v.take (v.length / 2)))
            ((v.length : Int) / 2 ⊓ (v.length : Int)) none none) =
            some g1 := by
          rw [show (v.length : Int) / 2 ⊓ (v.length : Int) =
            ((v.length / 2 ⊓ v.length : Nat) : Int) from by omega]
          exact hg1'
        have hg2'' : gAdjustF s fuel (GRope.mk (some (v.drop (v.length / 2)))
            ((v.length : Int) - (v.length : Int) / 2) none none) =
            some g2 := by
          rw [show (v.length : Int) - (v.length : Int) / 2 =
            ((v.length - v.length / 2 : Nat) : Int) from by omega]
          exact hg2'
        refine ⟨.mk none (v.length : Int) (some g1) (some g2), ?_⟩
        rw [gNewRope, gAdjustF]
        simp [hgt, hdiv, hg1', hg2', hg1'', hg2'']
      · refine ⟨.mk (some v) (v.length : Int) none none, ?_⟩
        rw [gNewRope, gAdjustF]
        simp [hgt]

theorem gRebalance_shaped [Inhabited T] {s : Settings} {fuel : Nat}
    {cond : Int → Int → Bool} :
    ∀ {g g2 : GRope T}, Shaped g → gRebalance s fuel cond g = some g2 →
      Shaped g2 := by
  intro g g2 hs
  induction hs generalizing g2 with
  | leaf v n =>
      intro h
      simp only [gRebalance, Option.pure_def, Option.some.injEq] at h
      subst h
      exact Shaped.leaf v n
  | node n l r hsl hsr ihl ihr =>
      intro h
      simp only [gRebalance] at h
      split at h
      · simp only [bind, Option.bind_eq_some] at h
        obtain ⟨val, hval, hg⟩ := h
        exact gNewRope_shaped hg
      · simp only [bind, Option.bind_eq_some, Option.pure_def,
          Option.some.injEq] at h
        obtain ⟨l2, hl2, r2, hr2, hg⟩ := h
        subst hg
        exact Shaped.node n l2 r2 (ihl hl2) (ihr hr2)

theorem gRebalance_total [Inhabited T] {s : Settings}
    {cond : Int → Int → Bool} (hsp : 1 ≤ s.SplitLength) :
    ∀ (fuel : Nat) {g : GRope T}, Shaped g → gMaxLen g < fuel →
      (gRebalance s fuel cond g).isSome = true := by
  intro fuel g hs
  induction hs with
  | leaf v n =>
      intro hf
      simp [gRebalance]
  | node n l r hsl hsr ihl ihr =>
      intro hf
      simp only [gMaxLen] at hf
      simp only [gRebalance]
      split
      · obtain ⟨val, hval⟩ := Option.isSome_iff_exists.mp
          (gCopy_isSome (List.replicate n.toNat default)
            (Shaped.node n l r hsl hsr))
        have hval' : gValue (GRope.mk none n (some l) (some r)) = some val :=
          hval
        have hvlen : val.length = n.toNat := by
          rw [gCopy_length _ _ (Shaped.node n l r hsl hsr) hval,
            List.length_replicate]
        obtain ⟨gn, hgn⟩ := gNewRope_total hsp fuel val (by omega)
        simp [hval', hgn]
      · obtain ⟨l2, hl2⟩ := Option.isSome_iff_exists.mp (ihl (by omega))
        obtain ⟨r2, hr2⟩ := Option.isSome_iff_exists.mp (ihr (by omega))
        simp [hl2, hr2]

/-- Claim C1: the spec states that for `0 ≤ start ≤ end ≤ len(S)`,
`Value(Remove(Rope(S), start, end)) == S[:start] + S[end:]`.  The code
violates this: with settings `{SplitLength:4, JoinLength:2}` (a valid
configuration, split > join) and `S = [0,1,2,3,4]`, `Remove(r, 0, 4)`
triggers adjust's join branch, which copies the right child into
`r.value[:r.left.length]` (the prefix) instead of `r.value[r.left.length:]`
(as the spec and the sibling routine `Copy` prescribe), yielding the
zero-value buffer `[0]` where the claim requires `[4]`.  This theorem
evaluates the embedded code at that failing input. -/
theorem C1_remove_join_bug_eval :
    ((NewRope (T := Int) ⟨4, 2⟩ 10 [0, 1, 2, 3, 4]).bind
        (fun r => r.Remove ⟨4, 2⟩ 10 0 4)).map Rope.Value = some [0] ∧
      List.take (0 : Int).toNat ([0, 1, 2, 3, 4] : List Int) ++
        List.drop (4 : Int).toNat ([0, 1, 2, 3, 4] : List Int) = [4] ∧
      some ([0] : List Int) ≠ some ([4] : List Int) :=
  ⟨by decide, by decide, by decide⟩

/-- Claim C2: the spec states that adjust's join branch copies `left`'s
contents into the first segment of the new buffer and `right`'s contents
into the remaining segment.  The code instead copies `right` into
`r.value[:r.left.length]`, overwriting `left`'s segment and leaving the
tail zero-filled.  Evaluated at an internal node `(leaf [7], leaf [9])` of
total length 2 with `JoinLength = 3` (so the join branch fires), the code
produces the buffer `[9, 0]` where the claim requires `[7] ++ [9] = [7, 9]`. -/
theorem C2_adjust_join_eval :
    adjustF (T := Int) ⟨4, 3⟩ 5
        (.node 2 (.leaf [7] 1) (.leaf [9] 1)) = some (.leaf [9, 0] 2) ∧
      itemsOf (Rope.node 2 (Rope.leaf ([7] : List Int) 1)
        (Rope.leaf [9] 1)) = [7, 9] ∧
      ([9, 0] : List Int) ≠ [7, 9] :=
  ⟨by decide, by decide, by decide⟩

/-- Claim C3: for every sequence `S`, index `0 ≤ i ≤ len(S)` and insertion
sequence `X`, `Insert` on a rope built from `S` returns a rope whose
`Value()` equals `S[:i] + X + S[i:]`; the original rope is a distinct value
in this pure embedding (Insert allocates fresh nodes along the edited
path), and its `Value()` equals `S` — both conclusions are stated. -/
theorem C3_insert_value [Inhabited T] (s : Settings) (fuel1 fuel2 : Nat)
    (S X : List T) (i : Int) (r r2 : Rope T)
    (hr : NewRope s fuel1 S = some r)
    (h0 : 0 ≤ i) (hle : i ≤ (S.length : Int))
    (h : r.Insert s fuel2 i X = some r2) :
    r2.Value = S.take i.toNat ++ X ++ S.drop i.toNat ∧ r.Value = S := by
  obtain ⟨hw, hi⟩ := newRope_spec hr
  have hlen : (r.len : Int) = (S.length : Int) := by
    rw [← items_length hw, hi]
  obtain ⟨hw2, hi2⟩ := insert_spec hw h0 (by omega) h
  refine ⟨?_, ?_⟩
  · rw [Value_eq hw2, hi2, hi]
  · rw [Value_eq hw, hi]

/-- Witness for C3 at `S = [10,20,30,40,50]`, `i = 2`, `X = [7,8]`,
settings `{2, 1}`. -/
theorem C3_insert_value_witness :
    Rope.Value (Rope.node 7 (Rope.leaf ([10, 20] : List Int) 2)
        (Rope.node 5 (Rope.node 3 (Rope.leaf [7] 1) (Rope.leaf [8, 30] 2))
          (Rope.leaf [40, 50] 2))) = [10, 20, 7, 8, 30, 40, 50] ∧
      Rope.Value (Rope.node 5 (Rope.leaf ([10, 20] : List Int) 2)
        (Rope.node 3 (Rope.leaf [30] 1) (Rope.leaf [40, 50] 2))) =
        [10, 20, 30, 40, 50] := by
  have h := C3_insert_value (T := Int) ⟨2, 1⟩ 10 10 [10, 20, 30, 40, 50]
    [7, 8] 2
    (Rope.node 5 (Rope.leaf [10, 20] 2)
      (Rope.node 3 (Rope.leaf [30] 1) (Rope.leaf [40, 50] 2)))
    (Rope.node 7 (Rope.leaf [10, 20] 2)
      (Rope.node 5 (Rope.node 3 (Rope.leaf [7] 1) (Rope.leaf [8, 30] 2))
        (Rope.leaf [40, 50] 2)))
    (by decide) (by decide) (by decide) (by decide)
  exact ⟨h.1.trans (by decide), h.2⟩

/-- Claim C4: `Rebalance` leaves the represented sequence unchanged:
for every rope `r` satisfying the cached-length invariant `WF` (which
holds for every rope the API produces, claim C6) and every outcome of the
float32 ratio test (abstracted as the Boolean predicate `cond`), the
rope that `Rebalance` leaves in place has the same `Value()`. -/
theorem C4_rebalance_preserves_value [Inhabited T] (s : Settings)
    (fuel : Nat) (cond : Nat → Nat → Bool) (r r2 : Rope T) (hw : WF r)
    (h : r.Rebalance s fuel cond = some r2) : r2.Value = r.Value := by
  obtain ⟨hw2, hi⟩ := rebalance_spec hw h
  rw [Value_eq hw2, Value_eq hw, hi]

/-- Witness for C4 on the rope `node (leaf [1], leaf [2,3])` with an
always-true rebalance predicate and settings `{2, 1}`. -/
theorem C4_rebalance_preserves_value_witness :
    Rope.Value (Rope.node 3 (Rope.leaf ([1] : List Int) 1)
        (Rope.leaf [2, 3] 2)) =
      Rope.Value (Rope.node 3 (Rope.leaf ([1] : List Int) 1)
        (Rope.leaf [2, 3] 2)) :=
  C4_rebalance_preserves_value (T := Int) ⟨2, 1⟩ 10 (fun _ _ => true)
    (Rope.node 3 (Rope.leaf [1] 1) (Rope.leaf [2, 3] 2))
    (Rope.node 3 (Rope.leaf [1] 1) (Rope.leaf [2, 3] 2))
    (by decide) (by decide)

/-- Claim C5: for every rope `r` satisfying the cached-length invariant
`WF` and all `0 ≤ a ≤ b ≤ r.Length()`, `Slice(r, a, b)` equals
`Value(r)[a:b]`. -/
theorem C5_slice_eq_value_slice [Inhabited T] (r : Rope T) (a b : Int)
    (hw : WF r) (h0 : 0 ≤ a) (hab : a ≤ b) (hb : b ≤ (r.len : Int)) :
    r.Slice a b = (r.Value.drop a.toNat).take (b - a).toNat := by
  rw [Rope.Slice, csl_spec hw _ h0 hab hb, Value_eq hw]
  apply copyList_of_length_eq
  simp only [List.length_take, List.length_drop, List.length_replicate,
    items_length hw]
  simp only [Rope.len] at hb ⊢
  omega

/-- Witness for C5 on `node (leaf [1], leaf [2,3])` with `a = 1`, `b = 3`. -/
theorem C5_slice_eq_value_slice_witness :
    Rope.Slice (Rope.node 3 (Rope.leaf ([1] : List Int) 1)
      (Rope.leaf [2, 3] 2)) 1 3 = [2, 3] := by
  have h := C5_slice_eq_value_slice (T := Int)
    (Rope.node 3 (Rope.leaf [1] 1) (Rope.leaf [2, 3] 2)) 1 3
    (by decide) (by decide) (by decide) (by decide)
  exact h.trans (by decide)

/-- Claim C6: for every rope produced by `NewRope`, or derived from a
`WF` rope via `Insert` (with an in-bounds index, the spec's stated
precondition) or `Remove`, the cached `length` field is exact at every
reachable node: a leaf's `length` equals its buffer's size and an internal
node's `length` equals `left.length + right.length` (`WF`), and
consequently the cached root length equals the number of represented
elements. -/
theorem C6_length_invariant [Inhabited T] (s : Settings) :
    (∀ (fuel : Nat) (v : List T) (r : Rope T),
        NewRope s fuel v = some r → WF r) ∧
    (∀ (fuel : Nat) (r : Rope T) (i : Int) (X : List T) (r2 : Rope T),
        WF r → 0 ≤ i → i ≤ (r.len : Int) →
        r.Insert s fuel i X = some r2 → WF r2) ∧
    (∀ (fuel : Nat) (r : Rope T) (a b : Int) (r2 : Rope T),
        WF r → r.Remove s fuel a b = some r2 → WF r2) ∧
    (∀ r : Rope T, WF r → (itemsOf r).length = r.len) := by
  refine ⟨?_, ?_, ?_, ?_⟩
  · intro fuel v r h
    exact (newRope_spec h).1
  · intro fuel r i X r2 hw h0 hle h
    exact (insert_spec hw h0 hle h).1
  · intro fuel r a b r2 hw h
    exact remove_wf hw h
  · intro r hw
    exact items_length hw

/-- Witness for C6: the rope built from `[10,20,30,40,50]` with settings
`{4, 2}` satisfies the cached-length invariant. -/
theorem C6_length_invariant_witness :
    WF (Rope.node 5 (Rope.leaf ([10, 20] : List Int) 2)
      (Rope.leaf [30, 40, 50] 3)) = true :=
  (C6_length_invariant (T := Int) ⟨4, 2⟩).1 10 [10, 20, 30, 40, 50] _
    (by decide)

/-- Claim C7: for every rope `r` and every integer `x`, `Remove(r, x, x)`
returns `r` itself unchanged (the identity fast path), so its `Value()` is
identical to `r`'s. -/
theorem C7_remove_empty_range_identity [Inhabited T] (s : Settings)
    (fuel : Nat) (r : Rope T) (x : Int) : r.Remove s fuel x x = some r := by
  rw [Rope.Remove.eq_def]
  simp

/-- Claim C8: for every sequence `S` with `len(S) ≤ SplitLength` and every
configuration with `SplitLength > JoinLength`, `NewRope` produces a single
leaf — non-nil buffer, no children — with no split performed (stated on
the raw pointer-level embedding `GRope`, which records buffer nil-ness and
child presence). -/
theorem C8_short_sequence_single_leaf [Inhabited T] (s : Settings)
    (fuel : Nat) (S : List T) (hsj : s.JoinLength < s.SplitLength)
    (hlen : (S.length : Int) ≤ s.SplitLength) :
    gNewRope s (fuel + 1) S =
      some (.mk (some S) (S.length : Int) none none) := by
  rw [gNewRope, gAdjustF]
  simp [not_lt.mpr hlen]

/-- Witness for C8 with `S = [1,2,3]` and settings `{4, 2}`. -/
theorem C8_short_sequence_single_leaf_witness :
    gNewRope (T := Int) ⟨4, 2⟩ 10 [1, 2, 3] =
      some (.mk (some [1, 2, 3]) 3 none none) :=
  C8_short_sequence_single_leaf ⟨4, 2⟩ 9 [1, 2, 3] (by decide) (by decide)

/-- Claim C9: for every configuration with `SplitLength ≥ 1`, `NewRope`
terminates on every finite buffer: in the fuel embedding, any fuel larger
than the buffer length suffices, because a buffer splits only when its
length exceeds `SplitLength ≥ 1` and then both halves are strictly
shorter. -/
theorem C9_newRope_terminates [Inhabited T] (s : Settings)
    (hs : 1 ≤ s.SplitLength) (v : List T) (fuel : Nat)
    (h : v.length < fuel) : ∃ r, NewRope s fuel v = some r :=
  newRope_total hs fuel v h

/-- Witness for C9 with settings `{1, 0}` and `v = [5,6,7]`, fuel 4. -/
theorem C9_newRope_terminates_witness :
    ∃ r, NewRope (T := Int) ⟨1, 0⟩ 4 [5, 6, 7] = some r :=
  C9_newRope_terminates ⟨1, 0⟩ (by decide) [5, 6, 7] 4 (by decide)

/-- Claim C10: on the raw pointer-level embedding, every rope produced by
`NewRope` from a (non-nil) buffer, or derived from a well-shaped rope via
`Insert` or `Remove`, is well-shaped (`Shaped`): every reachable node is
either a leaf with a non-nil buffer and no children, or an internal node
with a nil buffer and both children present.  Consequently none of the
readers dereferences a missing child: `Copy` and `CopySlice` (and hence
`Value`, which is `Copy` into a fresh buffer) always return a result on
shaped ropes, and `Rebalance` — whose ratio test reads `left.length` and
`right.length`, whose rebuild branch runs `Value` and `NewRope`, and which
otherwise recurses into both children — preserves shapedness and, given
fuel exceeding every cached node length (needed only because its rebuild
branch runs the fuel-embedded `NewRope`, cf. claim C9), also always
returns a result on shaped ropes. -/
theorem C10_shape_invariant [Inhabited T] (s : Settings) :
    (∀ (fuel : Nat) (v : List T) (g : GRope T),
        gNewRope s fuel v = some g → Shaped g) ∧
    (∀ (fuel : Nat) (g : GRope T) (i : Int) (X : List T) (g2 : GRope T),
        Shaped g → gInsert s fuel g i X = some g2 → Shaped g2) ∧
    (∀ (fuel : Nat) (g : GRope T) (a b : Int) (g2 : GRope T),
        Shaped g → gRemove s fuel g a b = some g2 → Shaped g2) ∧
    (∀ (g : GRope T) (dst : List T),
        Shaped g → (gCopy g dst).isSome = true) ∧
    (∀ (g : GRope T) (dst : List T) (a b : Int),
        Shaped g → (gCopySlice g dst a b).isSome = true) ∧
    (∀ g : GRope T, Shaped g → (gValue g).isSome = true) ∧
    (∀ (fuel : Nat) (cond : Int → Int → Bool) (g g2 : GRope T),
        Shaped g → gRebalance s fuel cond g = some g2 → Shaped g2) ∧
    (∀ (fuel : Nat) (cond : Int → Int → Bool) (g : GRope T),
        Shaped g → 1 ≤ s.SplitLength → gMaxLen g < fuel →
        (gRebalance s fuel cond g).isSome = true) := by
  refine ⟨?_, ?_, ?_, ?_, ?_, ?_, ?_, ?_⟩
  · intro fuel v g h
    exact gNewRope_shaped h
  · intro fuel g i X g2 hs h
    exact gInsert_shaped hs h
  · intro fuel g a b g2 hs h
    exact gRemove_shaped hs h
  · intro g dst hs
    exact gCopy_isSome dst hs
  · intro g dst a b hs
    exact gCopySlice_isSome dst a b hs
  · intro g hs
    exact gCopy_isSome _ hs
  · intro fuel cond g g2 hs h
    exact gRebalance_shaped hs h
  · intro fuel cond g hs hsp hf
    exact gRebalance_total hsp fuel hs hf

/-- Witness for C10: a concrete shaped two-leaf rope, on which `gCopy`
succeeds and `gRebalance` (with fuel 10 > its maximal cached length 2 and
`SplitLength = 4 ≥ 1`) also succeeds. -/
theorem C10_shape_invariant_witness :
    Shaped (GRope.mk none 2
        (some (GRope.mk (some ([1] : List Int)) 1 none none))
        (some (GRope.mk (some [2]) 1 none none))) ∧
      (gCopy (GRope.mk none 2
        (some (GRope.mk (some ([1] : List Int)) 1 none none))
        (some (GRope.mk (some [2]) 1 none none))) [0, 0]).isSome = true ∧
      (gRebalance ⟨4, 2⟩ 10 (fun _ _ => true) (GRope.mk none 2
        (some (GRope.mk (some ([1] : List Int)) 1 none none))
        (some (GRope.mk (some [2]) 1 none none)))).isSome = true := by
  have hs : Shaped (GRope.mk none 2
      (some (GRope.mk (some ([1] : List Int)) 1 none none))
      (some (GRope.mk (some [2]) 1 none none))) :=
    Shaped.node 2 _ _ (Shaped.leaf _ _) (Shaped.leaf _ _)
  refine ⟨hs, (C10_shape_invariant (T := Int) ⟨4, 2⟩).2.2.2.1 _ [0, 0] hs, ?_⟩
  exact (C10_shape_invariant (T := Int) ⟨4, 2⟩).2.2.2.2.2.2.2 10
    (fun _ _ => true) _ hs (by decide) (by decide)

end RopeModel
